import Mathlib

/-!
Shallow embedding of the batched sequence allocator in `src/sequence.rs`
(`Sequencer`, backed by the process-wide atomic `SEQUENCE_GLOBAL`).

`Sequence` is `u64`; we model `u64` values as natural numbers and take the
result of every addition the Rust code performs on them modulo `2 ^ 64`,
matching the wrapping semantics of `AtomicU64::fetch_add` and of release-mode
`u64` addition.  The global atomic counter is modelled as a record holding its
current value together with the number of `fetch_add` calls performed on it so
far; the count is pure instrumentation that lets theorems speak about whether
a call "performed a fetch_add" (a refill).  All atomic orderings in the source
are `Relaxed`; an execution is modelled as a sequence of whole `inc()` calls
(each call's read-modify-write of the global counter is atomic, and the
per-allocator fields are thread-confined), so interleavings are captured by
the order of calls.
-/

namespace SeqRs

/-- The modulus of the 64-bit `Sequence` type (`u64`). -/
def u64Mod : Nat := 2 ^ 64

/-- The global atomic counter `SEQUENCE_GLOBAL: AtomicU64`, with `value` its
current contents and `fetches` the number of `fetch_add` calls performed on it
(instrumentation only). It starts at `⟨0, 0⟩`. -/
structure Global where
  value : Nat
  fetches : Nat
deriving DecidableEq

/-- `SEQUENCE_GLOBAL.fetch_add(n, Ordering::Relaxed)`: returns the previous
value and advances the counter by `n`, wrapping at `2 ^ 64`. -/
def fetch_add (g : Global) (n : Nat) : Nat × Global :=
  (g.value, ⟨(g.value + n) % u64Mod, g.fetches + 1⟩)

/-- `SEQUENCE_GLOBAL.load(Ordering::Relaxed)`. -/
def load (g : Global) : Nat := g.value

/-- The `Sequencer` struct. The Rust field `local` is spelled `locl` here
(`local` is a reserved word); `target`, `step` and `lag` keep their names. -/
structure Sequencer where
  locl : Nat
  target : Nat
  step : Nat
  lag : Nat
deriving DecidableEq

/-- `Sequencer::new(step, lag)`: `local = target = 0`. -/
def Sequencer.new (step lag : Nat) : Sequencer :=
  ⟨0, 0, step, lag⟩

/-- `Sequencer::alloc`: `self.local = SEQUENCE_GLOBAL.fetch_add(self.step);
self.target = self.local + self.step;`. -/
def Sequencer.alloc (s : Sequencer) (g : Global) : Sequencer × Global :=
  let r := fetch_add g s.step
  ({ s with locl := r.1, target := (r.1 + s.step) % u64Mod }, r.2)

/-- The refill condition tested by `Sequencer::try_alloc`:
`self.local == self.target || self.local + self.lag < SEQUENCE_GLOBAL.load()`
(the addition `self.local + self.lag` is a wrapping `u64` addition). -/
def Sequencer.refillCond (s : Sequencer) (g : Global) : Prop :=
  s.locl = s.target ∨ (s.locl + s.lag) % u64Mod < load g

instance (s : Sequencer) (g : Global) : Decidable (s.refillCond g) :=
  decidable_of_iff (s.locl = s.target ∨ (s.locl + s.lag) % u64Mod < load g) Iff.rfl

/-- `Sequencer::try_alloc`: call `alloc` when the refill condition holds. -/
def Sequencer.try_alloc (s : Sequencer) (g : Global) : Sequencer × Global :=
  if s.refillCond g then s.alloc g else (s, g)

/-- `Sequencer::inc`: `self.try_alloc(); let res = self.local;
self.local += 1; res`.  Returns the issued value, the new allocator state and
the new global state. -/
def Sequencer.inc (s : Sequencer) (g : Global) : Nat × Sequencer × Global :=
  let sg := s.try_alloc g
  (sg.1.locl, { sg.1 with locl := (sg.1.locl + 1) % u64Mod }, sg.2)

/-- Iterate `inc` on a single allocator that is the sole user of the global
counter; returns the list of issued values in call order, the final allocator
state and the final global state. -/
def runSolo (s : Sequencer) (g : Global) : Nat → List Nat × Sequencer × Global
  | 0 => ([], s, g)
  | n + 1 =>
    let r := s.inc g
    let rest := runSolo r.2.1 r.2.2 n
    (r.1 :: rest.1, rest.2)

/-- A system of `n` allocators sharing the one global counter. -/
structure Sys (n : Nat) where
  global : Global
  seqs : Fin n → Sequencer

/-- `n` freshly constructed allocators (`Sequencer::new (steps i) (lags i)`)
sharing a fresh global counter at `0`. -/
def Sys.init (n : Nat) (steps lags : Fin n → Nat) : Sys n :=
  ⟨⟨0, 0⟩, fun i => Sequencer.new (steps i) (lags i)⟩

/-- Allocator `i` performs one `inc()` call; returns the issued value and the
new system state. -/
def Sys.callOn {n : Nat} (st : Sys n) (i : Fin n) : Nat × Sys n :=
  let r := (st.seqs i).inc st.global
  (r.1, ⟨r.2.2, Function.update st.seqs i r.2.1⟩)

/-- Run an interleaving: the trace lists, in order, which allocator performs
each `inc()` call.  Returns the issued values tagged with their caller. -/
def Sys.run {n : Nat} (st : Sys n) : List (Fin n) → List (Fin n × Nat) × Sys n
  | [] => ([], st)
  | i :: tr =>
    let r := st.callOn i
    let rest := r.2.run tr
    ((i, r.1) :: rest.1, rest.2)

/-- The global counter never wraps along the trace: before each call, the
caller's `step` still fits under `2 ^ 64` above the current global value. -/
def Sys.noWrap {n : Nat} (st : Sys n) : List (Fin n) → Bool
  | [] => true
  | i :: tr =>
    decide (st.global.value + (st.seqs i).step < u64Mod) && (st.callOn i).2.noWrap tr

/-! ### Basic lemmas about a single `inc` call -/

/-- When the refill condition holds, `inc` is one `fetch_add(step)` followed by
serving the returned value. -/
lemma inc_of_refill {s : Sequencer} {g : Global} (h : s.refillCond g) :
    s.inc g = (g.value,
      ⟨(g.value + 1) % u64Mod, (g.value + s.step) % u64Mod, s.step, s.lag⟩,
      ⟨(g.value + s.step) % u64Mod, g.fetches + 1⟩) := by
  unfold Sequencer.inc Sequencer.try_alloc
  rw [if_pos h]
  rfl

/-- When the refill condition fails, `inc` serves `local` and only bumps it. -/
lemma inc_of_not_refill {s : Sequencer} {g : Global} (h : ¬ s.refillCond g) :
    s.inc g = (s.locl, ⟨(s.locl + 1) % u64Mod, s.target, s.step, s.lag⟩, g) := by
  unfold Sequencer.inc Sequencer.try_alloc
  rw [if_neg h]

/-- `inc` never changes the `step` and `lag` fields. -/
lemma inc_step_lag (s : Sequencer) (g : Global) :
    ((s.inc g).2.1).step = s.step ∧ ((s.inc g).2.1).lag = s.lag := by
  by_cases h : s.refillCond g
  · rw [inc_of_refill h]; exact ⟨rfl, rfl⟩
  · rw [inc_of_not_refill h]; exact ⟨rfl, rfl⟩

end SeqRs

namespace SeqRs

/-! ### Claim theorems: single-call behaviour -/

/-- C2. Refill trigger: an `inc()` call performs a `fetch_add` on the global
counter iff, at entry, `local == target` or `local + lag < global` (the
condition of `try_alloc`); when the condition fails the global counter is left
completely unmodified.  A freshly constructed allocator (`local == target == 0`)
satisfies the condition, so its first call always refills. -/
theorem seq_refill_trigger (s : Sequencer) (g : Global) :
    ((((s.inc g).2.2).fetches = g.fetches + 1) ↔ s.refillCond g) ∧
    (¬ s.refillCond g → (s.inc g).2.2 = g) ∧
    (∀ step lag : Nat, (Sequencer.new step lag).refillCond g) := by
  refine ⟨?_, ?_, fun _ _ => Or.inl rfl⟩
  · by_cases h : s.refillCond g
    · rw [inc_of_refill h]; simpa using h
    · rw [inc_of_not_refill h]; simp [h]
  · intro h; rw [inc_of_not_refill h]

/-- Witness for C2 at a concrete no-refill input. -/
theorem seq_refill_trigger_witness :
    ((Sequencer.mk 1 5 4 7).inc ⟨0, 0⟩).2.2 = (⟨0, 0⟩ : Global) :=
  (seq_refill_trigger ⟨1, 5, 4, 7⟩ ⟨0, 0⟩).2.1 (by decide)

/-- C3. Refill effect: when the refill condition holds, `inc()` performs
exactly one `fetch_add(step)` (the fetch count goes up by one and the counter
advances by `step`), sets `local` to the value the fetch-and-add returned and
`target` to `local + step`, returns that new `local`, and leaves `local`
incremented by one. -/
theorem seq_refill_effect (s : Sequencer) (g : Global) (h : s.refillCond g) :
    s.inc g = (g.value,
      ⟨(g.value + 1) % u64Mod, (g.value + s.step) % u64Mod, s.step, s.lag⟩,
      ⟨(g.value + s.step) % u64Mod, g.fetches + 1⟩) :=
  inc_of_refill h

/-- Witness for C3 on a fresh allocator with `step = 4`. -/
theorem seq_refill_effect_witness :
    (Sequencer.new 4 100).inc ⟨0, 0⟩ = (0, ⟨1, 4, 4, 100⟩, ⟨4, 1⟩) :=
  (seq_refill_effect (Sequencer.new 4 100) ⟨0, 0⟩ (Or.inl rfl)).trans (by decide)

/-- C10. Configuration frame: an `inc()` call (refilling or not) leaves the
`step` and `lag` fields of the allocator unchanged; a `Sequencer` has only the
four fields `local`, `target`, `step`, `lag`, so beyond the global counter only
`local` and `target` are ever modified after construction. -/
theorem seq_config_frame (s : Sequencer) (g : Global) :
    ((s.inc g).2.1).step = s.step ∧ ((s.inc g).2.1).lag = s.lag :=
  inc_step_lag s g

/-- C4. Concrete scenario (`step = 4`, `lag = 100`, fresh global counter at 0,
single allocator): the first four calls return `0, 1, 2, 3` off a single
initial refill, and the fifth call performs a second `fetch_add` claiming
`[4, 8)` (final state: `local = 5`, `target = 8`, global counter `8` after two
fetches) and returns `4`. -/
theorem seq_concrete_scenario :
    (runSolo (Sequencer.new 4 100) ⟨0, 0⟩ 4).1 = [0, 1, 2, 3] ∧
    ((runSolo (Sequencer.new 4 100) ⟨0, 0⟩ 4).2.2).fetches = 1 ∧
    (runSolo (Sequencer.new 4 100) ⟨0, 0⟩ 5).1 = [0, 1, 2, 3, 4] ∧
    (runSolo (Sequencer.new 4 100) ⟨0, 0⟩ 5).2.1 = ⟨5, 8, 4, 100⟩ ∧
    (runSolo (Sequencer.new 4 100) ⟨0, 0⟩ 5).2.2 = ⟨8, 2⟩ := by
  decide

/-- C8. Staleness bound scenario (`step = 64`, `lag = 512`): one call on a
fresh allocator returns `0` (claiming `[0, 64)`); the global counter is then
advanced externally by `1000` (to `1064`); the allocator's second call finds
`1 + 512 < 1064`, so it performs a fresh `fetch_add` instead of serving `1`
from its old batch, and returns the newly fetched `1064`. -/
theorem seq_staleness_bound :
    ((Sequencer.new 64 512).inc ⟨0, 0⟩).1 = 0 ∧
    (let r1 := (Sequencer.new 64 512).inc ⟨0, 0⟩
     let g1 := (fetch_add r1.2.2 1000).2
     let r2 := r1.2.1.inc g1
     g1.value = 1064 ∧ r2.2.2.fetches = g1.fetches + 1 ∧ r2.1 = 1064) := by
  decide

/-- C6 counterexample: the claim fails as stated.  The fresh state of an
allocator constructed with `step = 0` satisfies `local ≤ target` (both are 0),
yet after one `inc()` call (global counter at 0) the state is
`local = 1, target = 0`, violating `local ≤ target`. -/
theorem seq_inv_le_counterexample :
    (Sequencer.new 0 100).locl ≤ (Sequencer.new 0 100).target ∧
    ¬ ((((Sequencer.new 0 100).inc ⟨0, 0⟩).2.1).locl ≤
        (((Sequencer.new 0 100).inc ⟨0, 0⟩).2.1).target) := by
  decide

/-- C6 (amended). The fresh state satisfies `local ≤ target`, and `inc()`
preserves `local ≤ target` provided `step ≥ 1` and no `u64` wraparound occurs
(`target < 2 ^ 64`, i.e. the state is a genuine `u64` state, and
`global + step < 2 ^ 64`). -/
theorem seq_inv_le_amended :
    (∀ step lag : Nat, (Sequencer.new step lag).locl ≤ (Sequencer.new step lag).target) ∧
    (∀ (s : Sequencer) (g : Global), s.locl ≤ s.target → s.target < u64Mod →
      1 ≤ s.step → g.value + s.step < u64Mod →
      ((s.inc g).2.1).locl ≤ ((s.inc g).2.1).target) := by
  constructor
  · intro _ _; exact le_refl 0
  · intro s g hle ht hs hg
    by_cases h : s.refillCond g
    · rw [inc_of_refill h]
      show (g.value + 1) % u64Mod ≤ (g.value + s.step) % u64Mod
      rw [Nat.mod_eq_of_lt hg, Nat.mod_eq_of_lt (by omega)]
      omega
    · rw [inc_of_not_refill h]
      have hne : s.locl ≠ s.target := fun e => h (Or.inl e)
      show (s.locl + 1) % u64Mod ≤ s.target
      rw [Nat.mod_eq_of_lt (by omega)]
      omega

/-- Witness for C6 (amended) at a concrete mid-batch state. -/
theorem seq_inv_le_amended_witness :
    (((Sequencer.mk 2 6 4 100).inc ⟨0, 0⟩).2.1).locl ≤
      (((Sequencer.mk 2 6 4 100).inc ⟨0, 0⟩).2.1).target :=
  seq_inv_le_amended.2 ⟨2, 6, 4, 100⟩ ⟨0, 0⟩ (by decide) (by decide) (by decide)
    (by decide)

/-- C7 counterexample: the claim fails as stated.  With `step = 0` (and
`lag = 100`), the first `inc()` call refills (fetch count 1), but the second
call performs no `fetch_add` at all (the fetch count stays 1 instead of
becoming 2): after the first call `local = 1 ≠ target = 0` and the untouched
global counter is still 0, so neither refill condition holds. -/
theorem seq_step_zero_counterexample :
    (let r1 := (Sequencer.new 0 100).inc ⟨0, 0⟩
     let r2 := r1.2.1.inc r1.2.2
     r1.2.2.fetches = 1 ∧ r2.2.2.fetches = 1 ∧ ¬ r2.2.2.fetches = 2) := by
  decide

/-! ### Uniqueness invariant for interleaved executions -/

/-- Execution invariant tying a system state to the list `outs` of values
issued so far: the global value is a valid `u64`; every allocator's current
batch `[local, target)` sits below the global frontier; batches are pairwise
disjoint; issued values are pairwise distinct, below the global frontier, and
outside every current batch. -/
def Sys.Inv {n : Nat} (st : Sys n) (outs : List Nat) : Prop :=
  st.global.value < u64Mod ∧
  (∀ i, (st.seqs i).locl ≤ (st.seqs i).target) ∧
  (∀ i, (st.seqs i).target ≤ st.global.value) ∧
  (∀ i j, i ≠ j → (st.seqs i).target ≤ (st.seqs j).locl ∨
    (st.seqs j).target ≤ (st.seqs i).locl) ∧
  outs.Nodup ∧
  (∀ v ∈ outs, v < st.global.value) ∧
  (∀ v ∈ outs, ∀ i, v < (st.seqs i).locl ∨ (st.seqs i).target ≤ v)

instance {n : Nat} (st : Sys n) (outs : List Nat) : Decidable (st.Inv outs) := by
  unfold Sys.Inv
  infer_instance

lemma nodup_append_singleton {v : Nat} {outs : List Nat} (h : outs.Nodup)
    (hv : v ∉ outs) : (outs ++ [v]).Nodup := by
  simp [List.nodup_append, h, hv]

/-- One `inc()` call by allocator `i` preserves the invariant, provided `i`
has a positive `step` and the global counter cannot wrap on this call. -/
lemma inv_callOn {n : Nat} {st : Sys n} {outs : List Nat} (h : st.Inv outs)
    (i : Fin n) (hs : 1 ≤ (st.seqs i).step)
    (hw : st.global.value + (st.seqs i).step < u64Mod) :
    (st.callOn i).2.Inv (outs ++ [(st.callOn i).1]) := by
  obtain ⟨hG, hle, hub, hdisj, hnd, hlt, hfresh⟩ := h
  by_cases hr : (st.seqs i).refillCond st.global
  · have e2 : (st.global.value + (st.seqs i).step) % u64Mod
        = st.global.value + (st.seqs i).step := Nat.mod_eq_of_lt hw
    have e1 : (st.global.value + 1) % u64Mod = st.global.value + 1 :=
      Nat.mod_eq_of_lt (by omega)
    have eo : (st.callOn i).1 = st.global.value := by
      simp only [Sys.callOn, inc_of_refill hr]
    have eg : (st.callOn i).2.global.value = st.global.value + (st.seqs i).step := by
      simp only [Sys.callOn, inc_of_refill hr, e2]
    have es : (st.callOn i).2.seqs =
        Function.update st.seqs i
          ⟨st.global.value + 1, st.global.value + (st.seqs i).step,
           (st.seqs i).step, (st.seqs i).lag⟩ := by
      simp only [Sys.callOn, inc_of_refill hr, e1, e2]
    have hGout : st.global.value ∉ outs := fun hm => absurd (hlt _ hm) (lt_irrefl _)
    rw [eo]
    refine ⟨?_, fun j => ?_, fun j => ?_, fun j k hjk => ?_,
      nodup_append_singleton hnd hGout, fun v hv => ?_, fun v hv j => ?_⟩
    · rw [eg]
      exact hw
    · rw [es]
      rcases eq_or_ne j i with hje | hne
      · subst hje
        simp only [Function.update_same]
        omega
      · simp only [Function.update_noteq hne]
        exact hle j
    · rw [eg, es]
      rcases eq_or_ne j i with hje | hne
      · subst hje
        simp only [Function.update_same]
        omega
      · simp only [Function.update_noteq hne]
        have := hub j
        omega
    · rw [es]
      rcases eq_or_ne j i with hje | hnej
      · subst hje
        have hnek : k ≠ j := fun e => hjk e.symm
        simp only [Function.update_same, Function.update_noteq hnek]
        have := hub k
        omega
      · rcases eq_or_ne k i with hke | hnek
        · subst hke
          simp only [Function.update_same, Function.update_noteq hnej]
          have := hub j
          omega
        · simp only [Function.update_noteq hnej, Function.update_noteq hnek]
          exact hdisj j k hjk
    · rw [eg]
      rcases List.mem_append.mp hv with hv1 | hv1
      · have := hlt v hv1
        omega
      · rw [List.mem_singleton.mp hv1]
        omega
    · rw [es]
      rcases List.mem_append.mp hv with hv1 | hv1
      · rcases eq_or_ne j i with hje | hne
        · subst hje
          simp only [Function.update_same]
          have := hlt v hv1
          omega
        · simp only [Function.update_noteq hne]
          exact hfresh v hv1 j
      · rw [List.mem_singleton.mp hv1]
        rcases eq_or_ne j i with hje | hne
        · subst hje
          simp only [Function.update_same]
          omega
        · simp only [Function.update_noteq hne]
          have := hub j
          omega
  · have hnet : (st.seqs i).locl ≠ (st.seqs i).target := fun e => hr (Or.inl e)
    have hlti : (st.seqs i).locl < (st.seqs i).target :=
      lt_of_le_of_ne (hle i) hnet
    have hubi := hub i
    have e1 : ((st.seqs i).locl + 1) % u64Mod = (st.seqs i).locl + 1 :=
      Nat.mod_eq_of_lt (by omega)
    have eo : (st.callOn i).1 = (st.seqs i).locl := by
      simp only [Sys.callOn, inc_of_not_refill hr]
    have eg : (st.callOn i).2.global.value = st.global.value := by
      simp only [Sys.callOn, inc_of_not_refill hr]
    have es : (st.callOn i).2.seqs =
        Function.update st.seqs i
          ⟨(st.seqs i).locl + 1, (st.seqs i).target,
           (st.seqs i).step, (st.seqs i).lag⟩ := by
      simp only [Sys.callOn, inc_of_not_refill hr, e1]
    have hlout : (st.seqs i).locl ∉ outs := by
      intro hm
      rcases hfresh _ hm i with hlt1 | hle1
      · exact absurd hlt1 (lt_irrefl _)
      · omega
    rw [eo]
    refine ⟨?_, fun j => ?_, fun j => ?_, fun j k hjk => ?_,
      nodup_append_singleton hnd hlout, fun v hv => ?_, fun v hv j => ?_⟩
    · rw [eg]
      exact hG
    · rw [es]
      rcases eq_or_ne j i with hje | hne2
      · subst hje
        simp only [Function.update_same]
        omega
      · simp only [Function.update_noteq hne2]
        exact hle j
    · rw [eg, es]
      rcases eq_or_ne j i with hje | hne2
      · subst hje
        simp only [Function.update_same]
        exact hubi
      · simp only [Function.update_noteq hne2]
        exact hub j
    · rw [es]
      rcases eq_or_ne j i with hje | hnej
      · subst hje
        have hnek : k ≠ j := fun e => hjk e.symm
        simp only [Function.update_same, Function.update_noteq hnek]
        rcases hdisj j k hjk with h1 | h1
        · exact Or.inl h1
        · exact Or.inr (by omega)
      · rcases eq_or_ne k i with hke | hnek
        · subst hke
          simp only [Function.update_same, Function.update_noteq hnej]
          rcases hdisj j k hjk with h1 | h1
          · exact Or.inl (by omega)
          · exact Or.inr h1
        · simp only [Function.update_noteq hnej, Function.update_noteq hnek]
          exact hdisj j k hjk
    · rw [eg]
      rcases List.mem_append.mp hv with hv1 | hv1
      · exact hlt v hv1
      · rw [List.mem_singleton.mp hv1]
        omega
    · rw [es]
      rcases List.mem_append.mp hv with hv1 | hv1
      · rcases eq_or_ne j i with hje | hne2
        · subst hje
          rcases hfresh v hv1 j with h1 | h1
          · left
            simp only [Function.update_same]
            omega
          · right
            simp only [Function.update_same]
            exact h1
        · simp only [Function.update_noteq hne2]
          exact hfresh v hv1 j
      · rw [List.mem_singleton.mp hv1]
        rcases eq_or_ne j i with hje | hne2
        · subst hje
          simp only [Function.update_same]
          omega
        · simp only [Function.update_noteq hne2]
          rcases hdisj i j (fun e => hne2 e.symm) with h1 | h1
          · exact Or.inl (by omega)
          · exact Or.inr h1

/-- The invariant holds at a fresh system: every batch is the empty `[0, 0)`
and nothing has been issued. -/
lemma inv_init (n : Nat) (steps lags : Fin n → Nat) :
    (Sys.init n steps lags).Inv [] := by
  refine ⟨by norm_num [Sys.init, u64Mod], ?_, ?_, ?_, List.nodup_nil, ?_, ?_⟩ <;>
    simp [Sys.init, Sequencer.new]

/-- Running any no-wrap trace from an invariant state (all steps positive)
keeps the invariant, the issued values extending `outs`; steps stay
positive. -/
lemma inv_run {n : Nat} (tr : List (Fin n)) : ∀ (st : Sys n) (outs : List Nat),
    st.Inv outs → (∀ i, 1 ≤ (st.seqs i).step) → st.noWrap tr = true →
    ((st.run tr).2.Inv (outs ++ ((st.run tr).1.map Prod.snd)) ∧
     (∀ i, 1 ≤ ((st.run tr).2.seqs i).step)) := by
  induction tr with
  | nil =>
    intro st outs h hs _
    simpa [Sys.run] using ⟨h, hs⟩
  | cons i tr ih =>
    intro st outs h hs hw
    simp only [Sys.noWrap, Bool.and_eq_true, decide_eq_true_eq] at hw
    have h1 := inv_callOn h i (hs i) hw.1
    have hs1 : ∀ j, 1 ≤ ((st.callOn i).2.seqs j).step := by
      intro j
      rcases eq_or_ne j i with hje | hne
      · subst hje
        simp only [Sys.callOn, Function.update_same]
        rw [(inc_step_lag (st.seqs j) st.global).1]
        exact hs j
      · simp only [Sys.callOn, Function.update_noteq hne]
        exact hs j
    have h2 := ih (st.callOn i).2 (outs ++ [(st.callOn i).1]) h1 hs1 hw.2
    simp only [Sys.run]
    constructor
    · have := h2.1
      simpa [List.append_assoc] using this
    · exact h2.2

/-- Auxiliary: from pairwise-distinct issued values, the same value cannot be
issued under two different caller tags. -/
lemma eq_fst_of_nodup_map_snd {α β : Type} : ∀ (l : List (α × β)),
    (l.map Prod.snd).Nodup →
    ∀ (a₁ a₂ : α) (b : β), (a₁, b) ∈ l → (a₂, b) ∈ l → a₁ = a₂ := by
  intro l
  induction l with
  | nil =>
    intro _ a₁ a₂ b h1
    cases h1
  | cons p l ih =>
    intro hnd a₁ a₂ b h1 h2
    rw [List.map_cons, List.nodup_cons] at hnd
    rcases List.mem_cons.mp h1 with e1 | m1
    · rcases List.mem_cons.mp h2 with e2 | m2
      · subst e2
        exact congrArg Prod.fst e1
      · subst e1
        exact absurd (List.mem_map_of_mem Prod.snd m2) hnd.1
    · rcases List.mem_cons.mp h2 with e2 | m2
      · subst e2
        exact absurd (List.mem_map_of_mem Prod.snd m1) hnd.1
      · exact ih hnd.2 a₁ a₂ b m1 m2

/-- Splitting a run at an intermediate point. -/
lemma run_append {n : Nat} (tr1 tr2 : List (Fin n)) : ∀ st : Sys n,
    st.run (tr1 ++ tr2) =
      ((st.run tr1).1 ++ ((st.run tr1).2.run tr2).1,
       ((st.run tr1).2.run tr2).2) := by
  induction tr1 with
  | nil => intro st; simp [Sys.run]
  | cons i tr ih => intro st; simp [Sys.run, ih]

/-- C1 counterexample: the claim fails as stated.  Two freshly constructed
allocators, both with `step = 0` (and `lag = 100`), each call `inc()` once on
the fresh global counter: both calls return the value `0`. -/
theorem seq_uniqueness_counterexample :
    ¬ ((((Sys.init 2 (fun _ => 0) (fun _ => 100)).run [0, 1]).1.map
        Prod.snd).Nodup) := by
  decide

/-- C1 (amended). Uniqueness: for every finite interleaved sequence of
`inc()` calls by any number of freshly constructed allocators sharing the
global counter (initialized to 0), no value is returned twice — provided
every allocator's `step` is positive and the global counter never wraps
along the trace. -/
theorem seq_uniqueness_amended (n : Nat) (steps lags : Fin n → Nat)
    (tr : List (Fin n)) (hstep : ∀ i, 1 ≤ steps i)
    (hnw : (Sys.init n steps lags).noWrap tr = true) :
    (((Sys.init n steps lags).run tr).1.map Prod.snd).Nodup := by
  have h0 := inv_init n steps lags
  have hs0 : ∀ i, 1 ≤ ((Sys.init n steps lags).seqs i).step := fun i => hstep i
  have h := (inv_run tr (Sys.init n steps lags) [] h0 hs0 hnw).1
  exact h.2.2.2.2.1

/-- Witness for C1 (amended): two allocators with `step = 4`, `lag = 100`,
four interleaved calls. -/
theorem seq_uniqueness_amended_witness :
    ((((Sys.init 2 (fun _ => 4) (fun _ => 100)).run [0, 1, 0, 1]).1.map
        Prod.snd).Nodup) :=
  seq_uniqueness_amended 2 (fun _ => 4) (fun _ => 100) [0, 1, 0, 1]
    (by decide) (by decide)

/-- C9. Two-allocator scenario (`step = 4`, `lag = 100`, global counter at 0):
allocator 0 (A) calls `inc()` and then allocator 1 (B) does.  A's call claims
`[0, 4)` (fetch returned 0, `target = 4`) and returns 0; B's call claims
`[4, 8)` and returns 4; and in any no-wrap continuation of this execution no
value is ever returned by both allocators (a value determines its caller). -/
theorem seq_two_allocator_scenario :
    ((((Sys.init 2 (fun _ => 4) (fun _ => 100)).run [0, 1]).1 =
        [(0, 0), (1, 4)]) ∧
     (((Sys.init 2 (fun _ => 4) (fun _ => 100)).run [0, 1]).2.seqs 0 =
        ⟨1, 4, 4, 100⟩) ∧
     (((Sys.init 2 (fun _ => 4) (fun _ => 100)).run [0, 1]).2.seqs 1 =
        ⟨5, 8, 4, 100⟩) ∧
     (((Sys.init 2 (fun _ => 4) (fun _ => 100)).run [0, 1]).2.global =
        ⟨8, 2⟩)) ∧
    ∀ tr : List (Fin 2),
      (((Sys.init 2 (fun _ => 4) (fun _ => 100)).run [0, 1]).2).noWrap tr
          = true →
      ∀ (i₁ i₂ : Fin 2) (v : Nat),
        (i₁, v) ∈ ((Sys.init 2 (fun _ => 4) (fun _ => 100)).run
          ([0, 1] ++ tr)).1 →
        (i₂, v) ∈ ((Sys.init 2 (fun _ => 4) (fun _ => 100)).run
          ([0, 1] ++ tr)).1 →
        i₁ = i₂ := by
  refine ⟨by decide, ?_⟩
  intro tr hnw i₁ i₂ v h1 h2
  have hInv2 : (((Sys.init 2 (fun _ => 4) (fun _ => 100)).run [0, 1]).2).Inv
      [0, 4] := by decide
  have hs2 : ∀ i, 1 ≤ ((((Sys.init 2 (fun _ => 4) (fun _ => 100)).run
      [0, 1]).2).seqs i).step := by decide
  have h := (inv_run tr _ [0, 4] hInv2 hs2 hnw).1
  have hnd : (([0, 4] : List Nat) ++
      (((((Sys.init 2 (fun _ => 4) (fun _ => 100)).run [0, 1]).2).run
        tr).1.map Prod.snd)).Nodup := h.2.2.2.2.1
  rw [run_append] at h1 h2
  have e0 : (((Sys.init 2 (fun _ => 4) (fun _ => 100)).run [0, 1]).1 =
      [((0 : Fin 2), (0 : Nat)), (1, 4)]) := by decide
  rw [e0] at h1 h2
  refine eq_fst_of_nodup_map_snd _ ?_ i₁ i₂ v h1 h2
  simpa using hnd

/-- Witness for C9's quantified part at the empty continuation. -/
theorem seq_two_allocator_scenario_witness :
    ((0 : Fin 2), (0 : Nat)) ∈ ((Sys.init 2 (fun _ => 4) (fun _ => 100)).run
      ([0, 1] ++ [])).1 ∧ (0 : Fin 2) = 0 :=
  ⟨by decide, seq_two_allocator_scenario.2 [] (by decide) 0 0 0 (by decide)
    (by decide)⟩

/-- C7 (amended). An allocator constructed with `step = 0` refills on its
very first call, but not on every call: for every `lag`, with the global
counter fresh at 0 and not advanced by anyone else, the second call performs
no `fetch_add` (its batch is empty, yet `local = 1 ≠ target = 0` and the
staleness test `(1 + lag) % 2 ^ 64 < 0` can never hold). -/
theorem seq_step_zero_amended (lag : Nat) :
    (((Sequencer.new 0 lag).inc ⟨0, 0⟩).2.2).fetches = 1 ∧
    ((((Sequencer.new 0 lag).inc ⟨0, 0⟩).2.1.inc
        ((Sequencer.new 0 lag).inc ⟨0, 0⟩).2.2).2.2).fetches = 1 := by
  have h1 : (Sequencer.new 0 lag).refillCond ⟨0, 0⟩ := Or.inl rfl
  have e1 : (Sequencer.new 0 lag).inc ⟨0, 0⟩ = (0, ⟨1, 0, 0, lag⟩, ⟨0, 1⟩) := by
    rw [inc_of_refill h1]
    norm_num [Sequencer.new, u64Mod]
  have h2 : ¬ (Sequencer.mk 1 0 0 lag).refillCond ⟨0, 1⟩ := by
    intro h
    rcases h with h | h
    · exact one_ne_zero h
    · exact Nat.not_lt_zero _ h
  rw [e1, inc_of_not_refill h2]
  exact ⟨rfl, rfl⟩

/-! ### Single-allocator identity output (local monotonicity) -/

/-- Auxiliary induction for C5.  A single allocator with `step ≤ lag + 1`
that is the sole user of the global counter, at call count `k` in a reachable
state — `local = k`, the batch frontier `target` equals the global value, and
(for positive `step`) `k ≤ target < k + step` — issues exactly
`k, k + 1, ..., k + m - 1` over the next `m` calls, provided the total call
count stays `≤ N` and `N` rules out `u64` wraparound. -/
lemma runSolo_identity_aux (step lag N : Nat) (hsl : step ≤ lag + 1)
    (hN1 : N + step < u64Mod) (hN2 : N + lag < u64Mod) :
    ∀ (m k : Nat) (s : Sequencer) (g : Global), k + m ≤ N →
      s.step = step → s.lag = lag → s.locl = k → s.target = g.value →
      (step = 0 → s.target = 0) →
      (1 ≤ step → k ≤ s.target ∧ s.target < k + step) →
      (runSolo s g m).1 = List.range' k m := by
  intro m
  induction m with
  | zero =>
    intro k s g _ _ _ _ _ _ _
    rfl
  | succ m ih =>
    intro k s g hkm hstep hlag hlocl htar h0 h1
    rcases Nat.eq_zero_or_pos step with hz | hpos
    · -- degenerate step = 0: at most the very first call refills
      have ht0 : s.target = 0 := h0 hz
      have hgv : g.value = 0 := by omega
      rcases Nat.eq_zero_or_pos k with hk0 | hkpos
      · -- k = 0: initial refill, fetch_add(0) returns 0
        have hr : s.refillCond g := Or.inl (by omega)
        have e : s.inc g = (k, ⟨k + 1, 0, 0, lag⟩, ⟨0, g.fetches + 1⟩) := by
          rw [inc_of_refill hr, hgv, hstep, hlag, hz, hk0]
          norm_num [u64Mod]
        have ih' := ih (k + 1) ⟨k + 1, 0, 0, lag⟩ ⟨0, g.fetches + 1⟩
          (by omega) hz.symm rfl rfl rfl (fun _ => rfl)
          (fun hc => absurd hc (by omega))
        simp only [runSolo, e]
        rw [List.range'_succ, ih']
      · -- k ≥ 1: the empty batch never triggers again (global stuck at 0)
        have hnr : ¬ s.refillCond g := by
          intro hc
          rcases hc with hc | hc
          · omega
          · simp only [load] at hc
            omega
        have e : s.inc g = (k, ⟨k + 1, 0, step, lag⟩, g) := by
          rw [inc_of_not_refill hnr, hlocl, hstep, hlag, ht0,
            Nat.mod_eq_of_lt (show k + 1 < u64Mod by omega)]
        have ih' := ih (k + 1) ⟨k + 1, 0, step, lag⟩ g
          (by omega) rfl rfl rfl (show (0 : Nat) = g.value by omega)
          (fun _ => rfl) (fun hc => absurd hc (by omega))
        simp only [runSolo, e]
        rw [List.range'_succ, ih']
    · -- step ≥ 1
      obtain ⟨hkt, htk⟩ := h1 hpos
      rcases eq_or_ne k s.target with hk | hk
      · -- exhaustion refill: fetch_add returns the old frontier k
        have hgv : g.value = k := by omega
        have hr : s.refillCond g := Or.inl (by omega)
        have e : s.inc g =
            (k, ⟨k + 1, k + step, step, lag⟩, ⟨k + step, g.fetches + 1⟩) := by
          rw [inc_of_refill hr, hstep, hlag, hgv,
            Nat.mod_eq_of_lt (show k + step < u64Mod by omega),
            Nat.mod_eq_of_lt (show k + 1 < u64Mod by omega)]
        have ih' := ih (k + 1) ⟨k + 1, k + step, step, lag⟩
          ⟨k + step, g.fetches + 1⟩ (by omega) rfl rfl rfl rfl
          (fun hc => absurd hc (by omega))
          (fun _ => ⟨by show k + 1 ≤ k + step; omega,
                     by show k + step < k + 1 + step; omega⟩)
        simp only [runSolo, e]
        rw [List.range'_succ, ih']
      · -- mid-batch: serve k; since step ≤ lag + 1 the staleness test on the
        -- allocator's own frontier never fires
        have hklt : k < s.target := by omega
        have hnr : ¬ s.refillCond g := by
          intro hc
          rcases hc with hc | hc
          · omega
          · simp only [load] at hc
            rw [hlocl, hlag, Nat.mod_eq_of_lt (show k + lag < u64Mod by omega)]
              at hc
            omega
        have e : s.inc g = (k, ⟨k + 1, s.target, step, lag⟩, g) := by
          rw [inc_of_not_refill hnr, hlocl, hstep, hlag,
            Nat.mod_eq_of_lt (show k + 1 < u64Mod by omega)]
        have ih' := ih (k + 1) ⟨k + 1, s.target, step, lag⟩ g
          (by omega) rfl rfl rfl (show s.target = g.value from htar)
          (fun hc => absurd hc (by omega))
          (fun _ => ⟨by show k + 1 ≤ s.target; omega,
                     by show s.target < k + 1 + step; omega⟩)
        simp only [runSolo, e]
        rw [List.range'_succ, ih']

/-- C5 counterexample: the claim fails as stated.  With `step = 10, lag = 3`
(a configuration with `lag < step - 1`), a single fresh allocator that is the
sole user of the fresh global counter returns `0` and then `10` — the refill
it performed pushed the global counter to 10, so on the second call the
allocator finds itself stale (`1 + 3 < 10`) and refills instead of serving
`1`. -/
theorem seq_local_monotonic_counterexample :
    (runSolo (Sequencer.new 10 3) ⟨0, 0⟩ 2).1 = [0, 10] ∧
    (runSolo (Sequencer.new 10 3) ⟨0, 0⟩ 2).1 ≠ List.range 2 := by
  decide

/-- C5 (amended). Local monotonicity: for every `(step, lag)` configuration
with `step ≤ lag + 1` (so the allocator's own refill cannot make it stale), a
single fresh allocator that is the sole user of the fresh global counter
returns exactly `0, 1, 2, ..., n - 1` over its first `n` calls — strictly
increasing by exactly 1 each call — provided `n` is small enough that no
`u64` arithmetic wraps (`n + step < 2 ^ 64` and `n + lag < 2 ^ 64`). -/
theorem seq_local_monotonic_amended (step lag n : Nat) (hsl : step ≤ lag + 1)
    (h1 : n + step < u64Mod) (h2 : n + lag < u64Mod) :
    (runSolo (Sequencer.new step lag) ⟨0, 0⟩ n).1 = List.range n := by
  have h := runSolo_identity_aux step lag n hsl h1 h2 n 0
    (Sequencer.new step lag) ⟨0, 0⟩ (by omega) rfl rfl rfl rfl
    (fun _ => rfl)
    (fun hp => ⟨Nat.le_refl 0, by show (0 : Nat) < 0 + step; omega⟩)
  rw [h, List.range_eq_range']

/-- Witness for C5 (amended) at `step = 4`, `lag = 100`, nine calls. -/
theorem seq_local_monotonic_amended_witness :
    (runSolo (Sequencer.new 4 100) ⟨0, 0⟩ 9).1 = List.range 9 :=
  seq_local_monotonic_amended 4 100 9 (by decide) (by decide) (by decide)

end SeqRs
